import Mathlib

/-!
Shallow embedding of the manifest-compilation core of `src/cargo/util/toml.rs`
(the early cargo manifest compiler): decoding a generic TOML value tree into a
typed `TomlManifest`, resolving the polymorphic dependency table, normalizing
lib/bin target declarations, and assembling the final `Manifest`.

External collaborators (the `toml` crate value type and its `Decodable`-derived
decoders, `core::{Project, Summary, Manifest, Target, Dependency}`) are not in
the repository sources; where their behavior matters they are modelled from
the specification, and each such definition is marked in its doc comment.
Rust panics (out-of-bounds indexing in `normalize`) are modelled as `none` of
an outer `Option`; `CargoResult` errors as `Except`.
-/

namespace CargoToml

/-- Modelled from the spec: the generic, dynamically typed configuration value
tree produced by the external TOML parser (map / sequence / string / other
scalar). Only the shapes the compiler inspects are represented; `integer`
stands for every scalar shape other than a string. -/
inductive TomlValue : Type where
  | string (s : String)
  | integer (n : Int)
  | array (xs : List TomlValue)
  | table (t : List (String × TomlValue))

/-- Association-list lookup, first match wins. Models lookup in the external
TOML table type and in `HashMap` values built with unique keys. -/
def hmFind {α : Type} : List (String × α) → String → Option α
  | [], _ => none
  | (k', v) :: rest, k => if k' = k then some v else hmFind rest k

/-- Association-list insert with `HashMap::insert` semantics: replaces the
binding of an existing key, otherwise appends. Starting from `[]` the keys of
the accumulated list are always distinct. -/
def hmInsert {α : Type} : List (String × α) → String → α → List (String × α)
  | [], k, v => [(k, v)]
  | (k', v') :: rest, k, v =>
      if k' = k then (k, v) :: rest else (k', v') :: hmInsert rest k v

/-- Modelled from the external toml crate: `Value::lookup` with a single-path
segment (the compiler only ever looks up the dot-free paths `project`, `lib`,
`bin` and `dependencies`). -/
def TomlValue.lookup (v : TomlValue) (key : String) : Option TomlValue :=
  match v with
  | .table t => hmFind t key
  | _ => none

/-- `Value::get_str`: the string payload, if the value is a string. -/
def TomlValue.get_str : TomlValue → Option String
  | .string s => some s
  | _ => none

/-- `Value::get_table`: the table payload, if the value is a table. -/
def TomlValue.get_table : TomlValue → Option (List (String × TomlValue))
  | .table t => some t
  | _ => none

/-- Modelled from the external toml crate error type: `toml::ParseError` is
what `decode` returns for an absent path, `decodeError` stands for the errors
of `toml::from_toml` on a present value of the wrong shape. -/
inductive TomlError : Type where
  | parseError
  | decodeError
deriving DecidableEq

/-- `util::CargoError` as the compiler builds it: `simple_human(msg)` and
`toml_error(msg, cause)`. -/
inductive CargoError : Type where
  | simpleHuman (msg : String)
  | tomlError (msg : String) (cause : TomlError)
deriving DecidableEq

/-- Modelled from the spec: `core::Project`, the decoded `project` section -
package name, version and identity metadata. -/
structure Project : Type where
  name : String
  version : String
deriving DecidableEq

/-- `TomlTarget`: a declared target with a required name and an optional
explicit source path (struct at lines 133-137 of the source). -/
structure TomlTarget : Type where
  name : String
  path : Option String
deriving DecidableEq

/-- `DetailedTomlDependency`: required version plus the full sub-table
retained as auxiliary metadata. -/
structure DetailedTomlDependency : Type where
  version : String
  other : List (String × String)
deriving DecidableEq

/-- `TomlDependency`: the polymorphic dependency entry, a plain requirement
string or a detailed table. -/
inductive TomlDependency : Type where
  | SimpleDep (s : String)
  | DetailedDep (d : DetailedTomlDependency)
deriving DecidableEq

/-- `TomlManifest`: the typed decoding of the whole document. -/
structure TomlManifest : Type where
  project : Project
  lib : Option (List TomlTarget)
  bin : Option (List TomlTarget)
  dependencies : Option (List (String × TomlDependency))

/-- Modelled from the spec: `core::Target`, the tagged build-target variant
`Library{name, path}` / `Binary{name, path}` with a fully resolved path. The
constructors carry the names of the `Target::lib_target` / `Target::bin_target`
constructors the source calls. -/
inductive Target : Type where
  | lib_target (name : String) (path : String)
  | bin_target (name : String) (path : String)
deriving DecidableEq

/-- Modelled from the spec: `core::Summary`, the package identity together
with the resolved dependency sequence. The external dependency type is kept
abstract as a type parameter `D`; `Project::to_package_id` is modelled as the
identity on the decoded project section. -/
structure Summary (D : Type) : Type where
  project : Project
  deps : List D

/-- `Summary::new`. -/
def Summary.new {D : Type} (project : Project) (deps : List D) : Summary D :=
  ⟨project, deps⟩

/-- Modelled from the spec: `core::Manifest`, the final artifact: summary,
ordered build targets, and the fixed output directory. -/
structure Manifest (D : Type) : Type where
  summary : Summary D
  targets : List Target
  targetDir : String

/-- `Manifest::new`. -/
def Manifest.new {D : Type} (summary : Summary D) (targets : List Target)
    (targetDir : String) : Manifest D :=
  ⟨summary, targets, targetDir⟩

/-- `lib_targets` (lines 142-146): pushes one library target built from the
FIRST lib entry, defaulting the path to `src/<name>.rs`. The unguarded
`&libs[0]` indexing panics on an empty slice; the panic is the `none` case. -/
def lib_targets (libs : List TomlTarget) : Option (List Target) :=
  match libs with
  | [] => none
  | l :: _ =>
      some [Target.lib_target l.name (l.path.getD ("src/" ++ l.name ++ ".rs"))]

/-- `bin_targets` (lines 148-153): one binary target per entry in declaration
order; an explicit path wins, otherwise the supplied default is used. -/
def bin_targets (bins : List TomlTarget) (default : TomlTarget → String) :
    List Target :=
  bins.map (fun b => Target.bin_target b.name (b.path.getD (default b)))

/-- `normalize` (lines 139-172): canonical target list by presence of the
lib/bin sections. `none` models the panic of `lib_targets` on an empty
present lib list. -/
def normalize (lib : Option (List TomlTarget)) (bin : Option (List TomlTarget)) :
    Option (List Target) :=
  match lib, bin with
  | some libs, some bins =>
      (lib_targets libs).map
        (· ++ bin_targets bins (fun b => "src/bin/" ++ b.name ++ ".rs"))
  | some libs, none => lib_targets libs
  | none, some bins =>
      some (bin_targets bins (fun b => "src/" ++ b.name ++ ".rs"))
  | none, none => some []

/-- Modelled from the spec: the `Decodable`-derived decoding of the `project`
section into `core::Project` — a table carrying the package name and version
as strings (identity metadata beyond these two fields is not represented). -/
def fromTomlProject (v : TomlValue) : Except TomlError Project :=
  match v with
  | .table t =>
      match hmFind t "name", hmFind t "version" with
      | some (.string n), some (.string ver) => .ok ⟨n, ver⟩
      | _, _ => .error .decodeError
  | _ => .error .decodeError

/-- Modelled from the spec: the `Decodable`-derived decoding of one `lib` /
`bin` entry into `TomlTarget` — a table with a required string `name` and an
optional string `path`. -/
def fromTomlTarget (v : TomlValue) : Except TomlError TomlTarget :=
  match v with
  | .table t =>
      match hmFind t "name" with
      | some (.string n) =>
          match hmFind t "path" with
          | none => .ok ⟨n, none⟩
          | some (.string p) => .ok ⟨n, some p⟩
          | some _ => .error .decodeError
      | _ => .error .decodeError
  | _ => .error .decodeError

/-- Decodes each element of a target sequence in order, failing on the first
element that is not a well-formed target table. -/
def fromTomlTargetList : List TomlValue → Except TomlError (List TomlTarget)
  | [] => .ok []
  | v :: rest =>
      match fromTomlTarget v with
      | .error e => .error e
      | .ok t =>
          match fromTomlTargetList rest with
          | .error e => .error e
          | .ok ts => .ok (t :: ts)

/-- Modelled from the spec: `Vec<TomlTarget>` decoding — the value must be a
sequence of target tables. -/
def fromTomlTargets (v : TomlValue) : Except TomlError (List TomlTarget) :=
  match v with
  | .array xs => fromTomlTargetList xs
  | _ => .error .decodeError

/-- The inner `decode` helper of `toml_to_manifest` (lines 19-25),
instantiated at `Project`: lookup of an absent path yields
`toml::ParseError`, a present value is decoded with `toml::from_toml`. -/
def decodeProject (root : TomlValue) (path : String) : Except TomlError Project :=
  match root.lookup path with
  | none => .error .parseError
  | some v => fromTomlProject v

/-- The inner `decode` helper of `toml_to_manifest` (lines 19-25),
instantiated at `Vec<TomlTarget>`. -/
def decodeTargets (root : TomlValue) (path : String) :
    Except TomlError (List TomlTarget) :=
  match root.lookup path with
  | none => .error .parseError
  | some v => fromTomlTargets v

/-- The detailed-dependency branch of the dependency loop (lines 43-50):
every value of the sub-table must be a string, and the pairs are inserted
into the `details` map in iteration order. -/
def buildDetails (acc : List (String × String)) :
    List (String × TomlValue) → Except CargoError (List (String × String))
  | [] => .ok acc
  | (k, v) :: rest =>
      match v.get_str with
      | some s => buildDetails (hmInsert acc k s) rest
      | none => .error (.simpleHuman "dependency values must be string")

/-- The rest of the detailed-dependency branch (lines 52-58): the collected
`details` map must contain a `version` key; the whole map is retained as the
`other` field. -/
def mkDetailedDep (sub : List (String × TomlValue)) :
    Except CargoError TomlDependency :=
  match buildDetails [] sub with
  | .error e => .error e
  | .ok details =>
      match hmFind details "version" with
      | some version => .ok (.DetailedDep ⟨version, details⟩)
      | none => .error (.simpleHuman "dependencies must include a version")

/-- The dependency-table loop (lines 39-62): a string value is a `SimpleDep`,
a table value a `DetailedDep`, any other shape is skipped. -/
def processDeps (acc : List (String × TomlDependency)) :
    List (String × TomlValue) → Except CargoError (List (String × TomlDependency))
  | [] => .ok acc
  | (k, v) :: rest =>
      match v with
      | .string s => processDeps (hmInsert acc k (.SimpleDep s)) rest
      | .table sub =>
          match mkDetailedDep sub with
          | .error e => .error e
          | .ok d => processDeps (hmInsert acc k d) rest
      | _ => processDeps acc rest

/-- `toml_to_manifest` (lines 18-70): the required `project` section (failure
wrapped as `toml_error("ZOMG", e)`), the optional `lib` / `bin` sections with
decode failures swallowed by `.ok()`, and the optional dependency table. -/
def toml_to_manifest (root : TomlValue) : Except CargoError TomlManifest :=
  match decodeProject root "project" with
  | .error e => .error (.tomlError "ZOMG" e)
  | .ok project =>
      match root.lookup "dependencies" with
      | none =>
          .ok ⟨project, (decodeTargets root "lib").toOption,
            (decodeTargets root "bin").toOption, none⟩
      | some depsVal =>
          match depsVal.get_table with
          | none => .error (.simpleHuman "dependencies must be a table")
          | some tbl =>
              match processDeps [] tbl with
              | .error e => .error e
              | .ok deps =>
                  .ok ⟨project, (decodeTargets root "lib").toOption,
                    (decodeTargets root "bin").toOption, some deps⟩

/-- The dependency-collection loop of `TomlManifest::to_manifest`
(lines 112-124): the requirement string of each entry (from whichever
variant) is handed to the external `Dependency::parse`, which is kept
abstract as the parameter `parse`; the first parse failure aborts. -/
def collectDeps {D : Type} (parse : String → String → Except CargoError D) :
    List (String × TomlDependency) → Except CargoError (List D)
  | [] => .ok []
  | (n, v) :: rest =>
      let version :=
        match v with
        | .SimpleDep s => s
        | .DetailedDep d => d.version
      match parse n version with
      | .error e => .error e
      | .ok d =>
          match collectDeps parse rest with
          | .error e => .error e
          | .ok ds => .ok (d :: ds)

/-- `TomlManifest::to_manifest` (lines 100-131): normalize the targets (the
outer `Option` is `none` when `normalize` panics), collect the dependencies,
and assemble the manifest with the fixed `target` output directory. -/
def TomlManifest.to_manifest {D : Type}
    (parse : String → String → Except CargoError D) (tm : TomlManifest) :
    Option (Except CargoError (Manifest D)) :=
  match normalize tm.lib tm.bin with
  | none => none
  | some targets =>
      some
        (match
            (match tm.dependencies with
             | some dl => collectDeps parse dl
             | none => .ok []) with
         | .error e => .error e
         | .ok deps =>
             .ok (Manifest.new (Summary.new tm.project deps) targets "target"))

/-- `to_manifest` (lines 8-16) after a successful byte-level parse (the
external TOML syntax parser is outside this model): any `toml_to_manifest`
error is replaced by the single wrapped invalid-manifest error, then the
typed manifest is compiled. -/
def to_manifest {D : Type} (parse : String → String → Except CargoError D)
    (root : TomlValue) : Option (Except CargoError (Manifest D)) :=
  match toml_to_manifest root with
  | .error _ =>
      some (.error (.simpleHuman "Cargo.toml is not a valid Cargo manifest"))
  | .ok tm => tm.to_manifest parse

/-- Drops every binding of one key from an association list. -/
def removeKey {α : Type} : List (String × α) → String → List (String × α)
  | [], _ => []
  | (k', v) :: rest, key =>
      if k' = key then removeKey rest key else (k', v) :: removeKey rest key

/-- Removes one top-level key from the configuration tree: the comparison
point for the claim that a decode failure on an optional section behaves
exactly as if that section were not provided. -/
def eraseKey (v : TomlValue) (key : String) : TomlValue :=
  match v with
  | .table t => .table (removeKey t key)
  | v => v

/-- A well-formed `project` section used by concrete evaluation examples. -/
def exampleProjectTable : TomlValue :=
  .table [("name", .string "demo"), ("version", .string "0.1.0")]

/-- A document without a `project` section. -/
def exampleRootNoProject : TomlValue :=
  .table [("lib", .integer 3)]

/-- A document whose optional `lib` and `bin` sections are present but have
the wrong shape, so their typed decoding fails. -/
def exampleRootBadSections : TomlValue :=
  .table [("project", exampleProjectTable), ("lib", .integer 3),
    ("bin", .string "x")]

/-- A document whose single dependency entry is a table of strings without a
`version` key. -/
def exampleRootMissingVersion : TomlValue :=
  .table [("project", exampleProjectTable),
    ("dependencies", .table [("foo", .table [("registry", .string "custom")])])]

/-- A typed manifest with one plain-string dependency entry. -/
def exampleTomlManifest : TomlManifest :=
  ⟨⟨"demo", "0.1.0"⟩, none, none, some [("foo", .SimpleDep "1.0")]⟩

/-- A concrete stand-in for the external requirement parser that records its
two arguments, so that verbatim argument passing is observable. -/
def parseRecording : String → String → Except CargoError String :=
  fun n v => .ok (n ++ "@" ++ v)

/-- The manifest obtained by compiling `exampleTomlManifest` with
`parseRecording`. -/
def exampleManifest : Manifest String :=
  ⟨⟨⟨"demo", "0.1.0"⟩, ["foo@1.0"]⟩, [], "target"⟩

theorem get_str_eq_some (v : TomlValue) (s : String)
    (h : v.get_str = some s) : v = .string s := by
  cases v with
  | string t =>
      simp only [TomlValue.get_str, Option.some.injEq] at h
      rw [h]
  | integer n => exact Option.noConfusion h
  | array xs => exact Option.noConfusion h
  | table t => exact Option.noConfusion h

theorem hmInsert_mem_self {α : Type} (m : List (String × α)) (k : String)
    (v : α) : (k, v) ∈ hmInsert m k v := by
  induction m with
  | nil => simp [hmInsert]
  | cons hd tl ih =>
      rcases hd with ⟨k₀, v₀⟩
      by_cases hk : k₀ = k
      · simp [hmInsert, hk]
      · rw [show hmInsert ((k₀, v₀) :: tl) k v = (k₀, v₀) :: hmInsert tl k v
          from by simp [hmInsert, hk]]
        exact List.mem_cons.mpr (Or.inr ih)

theorem hmInsert_mem_of_ne {α : Type} (m : List (String × α)) (k k' : String)
    (v v' : α) (h : (k', v') ∈ m) (hne : k' ≠ k) : (k', v') ∈ hmInsert m k v := by
  induction m with
  | nil => exact absurd h (List.not_mem_nil _)
  | cons hd tl ih =>
      rcases hd with ⟨k₀, v₀⟩
      by_cases hk : k₀ = k
      · rw [show hmInsert ((k₀, v₀) :: tl) k v = (k, v) :: tl from by
          simp [hmInsert, hk]]
        rcases List.mem_cons.mp h with h1 | h1
        · have h2 : k' = k₀ := congrArg Prod.fst h1
          exact absurd (h2.trans hk) hne
        · exact List.mem_cons.mpr (Or.inr h1)
      · rw [show hmInsert ((k₀, v₀) :: tl) k v = (k₀, v₀) :: hmInsert tl k v
          from by simp [hmInsert, hk]]
        rcases List.mem_cons.mp h with h1 | h1
        · exact List.mem_cons.mpr (Or.inl h1)
        · exact List.mem_cons.mpr (Or.inr (ih h1))

theorem hmInsert_keys_subset {α : Type} (m : List (String × α)) (k : String)
    (v : α) :
    ∀ k', k' ∈ (hmInsert m k v).map Prod.fst →
      k' = k ∨ k' ∈ m.map Prod.fst := by
  induction m with
  | nil =>
      intro k' h
      simp only [hmInsert, List.map_cons, List.map_nil, List.mem_cons,
        List.not_mem_nil, or_false] at h
      exact Or.inl h
  | cons hd tl ih =>
      intro k' h
      rcases hd with ⟨k₀, v₀⟩
      by_cases hk : k₀ = k
      · rw [show hmInsert ((k₀, v₀) :: tl) k v = (k, v) :: tl from by
          simp [hmInsert, hk]] at h
        simp only [List.map_cons, List.mem_cons] at h ⊢
        rcases h with h | h
        · exact Or.inl h
        · exact Or.inr (Or.inr h)
      · rw [show hmInsert ((k₀, v₀) :: tl) k v = (k₀, v₀) :: hmInsert tl k v
          from by simp [hmInsert, hk]] at h
        simp only [List.map_cons, List.mem_cons] at h ⊢
        rcases h with h | h
        · exact Or.inr (Or.inl h)
        · rcases ih k' h with h2 | h2
          · exact Or.inl h2
          · exact Or.inr (Or.inr h2)

theorem hmFind_mem {α : Type} (m : List (String × α)) (k : String) (v : α)
    (h : hmFind m k = some v) : (k, v) ∈ m := by
  induction m with
  | nil => exact Option.noConfusion h
  | cons hd tl ih =>
      rcases hd with ⟨k₀, v₀⟩
      rw [hmFind] at h
      by_cases hk : k₀ = k
      · rw [if_pos hk] at h
        injection h with h
        exact List.mem_cons.mpr (Or.inl (by rw [← hk, ← h]))
      · rw [if_neg hk] at h
        exact List.mem_cons.mpr (Or.inr (ih h))

theorem buildDetails_ok_of_strings (sub : List (String × TomlValue)) :
    ∀ acc, (∀ p ∈ sub, ∃ s, p.2 = TomlValue.string s) →
      ∃ res, buildDetails acc sub = .ok res := by
  induction sub with
  | nil => intro acc _; exact ⟨acc, rfl⟩
  | cons hd tl ih =>
      intro acc hall
      rcases hd with ⟨k, v⟩
      obtain ⟨s, hs⟩ := hall (k, v) (List.mem_cons.mpr (Or.inl rfl))
      have hs2 : v = TomlValue.string s := hs
      subst hs2
      simp only [buildDetails, TomlValue.get_str]
      exact ih _ (fun p hp => hall p (List.mem_cons.mpr (Or.inr hp)))

theorem buildDetails_keys (sub : List (String × TomlValue)) :
    ∀ acc res, buildDetails acc sub = .ok res →
      ∀ k, k ∈ res.map Prod.fst →
        k ∈ acc.map Prod.fst ∨ k ∈ sub.map Prod.fst := by
  induction sub with
  | nil =>
      intro acc res h k hk
      injection h with h
      subst h
      exact Or.inl hk
  | cons hd tl ih =>
      intro acc res h k hk
      rcases hd with ⟨k₀, v₀⟩
      cases hv : v₀.get_str with
      | none =>
          simp only [buildDetails, hv] at h
          exact Except.noConfusion h
      | some s =>
          simp only [buildDetails, hv] at h
          rcases ih _ _ h k hk with h2 | h2
          · rcases hmInsert_keys_subset acc k₀ s k h2 with h3 | h3
            · exact Or.inr (by simp [h3])
            · exact Or.inl h3
          · exact Or.inr (by simp [h2])

theorem buildDetails_preserve (sub : List (String × TomlValue)) :
    ∀ acc res, buildDetails acc sub = .ok res →
      ∀ k s, (k, s) ∈ acc → k ∉ sub.map Prod.fst → (k, s) ∈ res := by
  induction sub with
  | nil =>
      intro acc res h k s hmem _
      injection h with h
      subst h
      exact hmem
  | cons hd tl ih =>
      intro acc res h k s hmem hnk
      rcases hd with ⟨k₀, v₀⟩
      cases hv : v₀.get_str with
      | none =>
          simp only [buildDetails, hv] at h
          exact Except.noConfusion h
      | some s₀ =>
          simp only [buildDetails, hv] at h
          simp only [List.map_cons, List.mem_cons, not_or] at hnk
          exact ih _ _ h k s (hmInsert_mem_of_ne acc k₀ k s₀ s hmem hnk.1) hnk.2

theorem buildDetails_mem (sub : List (String × TomlValue)) :
    ∀ acc res, buildDetails acc sub = .ok res →
      (sub.map Prod.fst).Nodup →
      ∀ k v, (k, v) ∈ sub →
        ∃ s, v = TomlValue.string s ∧ (k, s) ∈ res := by
  induction sub with
  | nil =>
      intro acc res _ _ k v hmem
      exact absurd hmem (List.not_mem_nil _)
  | cons hd tl ih =>
      intro acc res h hnd k v hmem
      rcases hd with ⟨k₀, v₀⟩
      cases hv : v₀.get_str with
      | none =>
          simp only [buildDetails, hv] at h
          exact Except.noConfusion h
      | some s₀ =>
          simp only [buildDetails, hv] at h
          simp only [List.map_cons, List.nodup_cons] at hnd
          rcases List.mem_cons.mp hmem with h1 | h1
          · have hk : k = k₀ := congrArg Prod.fst h1
            have hvv : v = v₀ := congrArg Prod.snd h1
            refine ⟨s₀, by rw [hvv]; exact get_str_eq_some v₀ s₀ hv, ?_⟩
            subst hk
            exact buildDetails_preserve tl _ _ h k s₀
              (hmInsert_mem_self acc k s₀) hnd.1
          · obtain ⟨s, hs, hmem2⟩ := ih _ _ h hnd.2 k v h1
            exact ⟨s, hs, hmem2⟩

theorem hmFind_removeKey_ne {α : Type} (t : List (String × α)) (k key : String)
    (h : k ≠ key) : hmFind (removeKey t key) k = hmFind t k := by
  induction t with
  | nil => rfl
  | cons hd tl ih =>
      rcases hd with ⟨k₀, v₀⟩
      by_cases hk : k₀ = key
      · rw [show removeKey ((k₀, v₀) :: tl) key = removeKey tl key from by
          simp [removeKey, hk]]
        rw [ih]
        rw [show hmFind ((k₀, v₀) :: tl) k = hmFind tl k from by
          simp [hmFind, show ¬k₀ = k from fun hkk => h (by rw [← hkk, hk])]]
      · rw [show removeKey ((k₀, v₀) :: tl) key = (k₀, v₀) :: removeKey tl key
          from by simp [removeKey, hk]]
        simp only [hmFind]
        rw [ih]

theorem hmFind_removeKey_self {α : Type} (t : List (String × α)) (key : String) :
    hmFind (removeKey t key) key = none := by
  induction t with
  | nil => rfl
  | cons hd tl ih =>
      rcases hd with ⟨k₀, v₀⟩
      by_cases hk : k₀ = key
      · simp [removeKey, hk, ih]
      · simp [removeKey, hmFind, hk, ih]

theorem lookup_eraseKey_ne (root : TomlValue) (k key : String) (h : k ≠ key) :
    (eraseKey root key).lookup k = root.lookup k := by
  cases root <;>
    simp [eraseKey, TomlValue.lookup, hmFind_removeKey_ne _ _ _ h]

theorem lookup_eraseKey_self (root : TomlValue) (key : String) :
    (eraseKey root key).lookup key = none := by
  cases root <;> simp [eraseKey, TomlValue.lookup, hmFind_removeKey_self]

theorem toml_to_manifest_congr (r₁ r₂ : TomlValue)
    (hp : decodeProject r₁ "project" = decodeProject r₂ "project")
    (hl : (decodeTargets r₁ "lib").toOption = (decodeTargets r₂ "lib").toOption)
    (hb : (decodeTargets r₁ "bin").toOption = (decodeTargets r₂ "bin").toOption)
    (hd : r₁.lookup "dependencies" = r₂.lookup "dependencies") :
    toml_to_manifest r₁ = toml_to_manifest r₂ := by
  unfold toml_to_manifest
  rw [hp, hl, hb, hd]

theorem toml_to_manifest_ok_fields (root : TomlValue) (tm : TomlManifest)
    (h : toml_to_manifest root = .ok tm) :
    tm.lib = (decodeTargets root "lib").toOption ∧
    tm.bin = (decodeTargets root "bin").toOption := by
  unfold toml_to_manifest at h
  split at h
  · exact Except.noConfusion h
  · split at h
    · injection h with h
      subst h
      exact ⟨rfl, rfl⟩
    · split at h
      · exact Except.noConfusion h
      · split at h
        · exact Except.noConfusion h
        · injection h with h
          subst h
          exact ⟨rfl, rfl⟩

/-- C2: when the generic tree has no `project` section, `toml_to_manifest`
fails (with the wrapped ZOMG decode error), regardless of every other
section, and the caller of `to_manifest` sees the single wrapped
invalid-manifest error - no manifest is returned. -/
theorem missing_project_fails {D : Type}
    (parse : String → String → Except CargoError D) (root : TomlValue)
    (h : root.lookup "project" = none) :
    toml_to_manifest root = .error (.tomlError "ZOMG" .parseError) ∧
    to_manifest parse root =
      some (.error (.simpleHuman "Cargo.toml is not a valid Cargo manifest")) := by
  have h1 : decodeProject root "project" = .error .parseError := by
    unfold decodeProject; rw [h]
  have h2 : toml_to_manifest root = .error (.tomlError "ZOMG" .parseError) := by
    unfold toml_to_manifest; rw [h1]
  refine ⟨h2, ?_⟩
  unfold to_manifest
  rw [h2]

/-- Concrete run of `missing_project_fails` on a document having only a `lib`
section. -/
theorem missing_project_fails_witness :
    toml_to_manifest exampleRootNoProject =
      .error (.tomlError "ZOMG" .parseError) ∧
    to_manifest parseRecording exampleRootNoProject =
      some (.error (.simpleHuman "Cargo.toml is not a valid Cargo manifest")) :=
  missing_project_fails parseRecording exampleRootNoProject rfl

/-- C7: a decode failure of the optional `lib` (respectively `bin`) section
is swallowed: compilation proceeds exactly as if the section were not
provided at all (removing the key from the tree changes nothing), the
successful result carries no library (respectively no binaries), and the
decode failure is never propagated. -/
theorem optional_section_decode_failure_swallowed (root : TomlValue) :
    (∀ e, decodeTargets root "lib" = .error e →
       toml_to_manifest root = toml_to_manifest (eraseKey root "lib") ∧
       ∀ tm, toml_to_manifest root = .ok tm → tm.lib = none) ∧
    (∀ e, decodeTargets root "bin" = .error e →
       toml_to_manifest root = toml_to_manifest (eraseKey root "bin") ∧
       ∀ tm, toml_to_manifest root = .ok tm → tm.bin = none) := by
  constructor
  · intro e he
    constructor
    · apply toml_to_manifest_congr
      · unfold decodeProject
        rw [lookup_eraseKey_ne root "project" "lib" (by decide)]
      · rw [he]
        unfold decodeTargets
        rw [lookup_eraseKey_self]
        rfl
      · unfold decodeTargets
        rw [lookup_eraseKey_ne root "bin" "lib" (by decide)]
      · rw [lookup_eraseKey_ne root "dependencies" "lib" (by decide)]
    · intro tm htm
      rw [(toml_to_manifest_ok_fields root tm htm).1, he]
      rfl
  · intro e he
    constructor
    · apply toml_to_manifest_congr
      · unfold decodeProject
        rw [lookup_eraseKey_ne root "project" "bin" (by decide)]
      · unfold decodeTargets
        rw [lookup_eraseKey_ne root "lib" "bin" (by decide)]
      · rw [he]
        unfold decodeTargets
        rw [lookup_eraseKey_self]
        rfl
      · rw [lookup_eraseKey_ne root "dependencies" "bin" (by decide)]
    · intro tm htm
      rw [(toml_to_manifest_ok_fields root tm htm).2, he]
      rfl

/-- Concrete run of `optional_section_decode_failure_swallowed` on a document
whose `lib` section is a scalar and whose `bin` section is a string. -/
theorem optional_section_decode_failure_swallowed_witness :
    toml_to_manifest exampleRootBadSections =
      toml_to_manifest (eraseKey exampleRootBadSections "lib") ∧
    toml_to_manifest exampleRootBadSections =
      toml_to_manifest (eraseKey exampleRootBadSections "bin") :=
  ⟨((optional_section_decode_failure_swallowed exampleRootBadSections).1
      .decodeError rfl).1,
   ((optional_section_decode_failure_swallowed exampleRootBadSections).2
      .decodeError rfl).1⟩

/-- C8: a dependency entry whose value is neither a string nor a table is
skipped by the dependency loop: it is not inserted and causes no failure -
processing the table with the entry equals processing it without the
entry. -/
theorem unrecognized_dep_shape_skipped (acc : List (String × TomlDependency))
    (pre post : List (String × TomlValue)) (k : String) (v : TomlValue)
    (h₁ : ∀ s, v ≠ .string s) (h₂ : ∀ t, v ≠ .table t) :
    processDeps acc (pre ++ (k, v) :: post) = processDeps acc (pre ++ post) := by
  induction pre generalizing acc with
  | nil =>
      cases v with
      | string s => exact absurd rfl (h₁ s)
      | table t => exact absurd rfl (h₂ t)
      | integer n => rfl
      | array xs => rfl
  | cons hd tl ih =>
      rcases hd with ⟨k₀, v₀⟩
      cases v₀ with
      | string s =>
          simp only [List.cons_append, processDeps]
          exact ih _
      | integer n =>
          simp only [List.cons_append, processDeps]
          exact ih _
      | array xs =>
          simp only [List.cons_append, processDeps]
          exact ih _
      | table sub =>
          simp only [List.cons_append, processDeps]
          cases hmk : mkDetailedDep sub with
          | error e => simp only [hmk]
          | ok d =>
              simp only [hmk]
              exact ih _

/-- Concrete run of `unrecognized_dep_shape_skipped`: an integer-valued entry
disappears from dependency processing. -/
theorem unrecognized_dep_shape_skipped_witness :
    processDeps [] [("num", TomlValue.integer 7), ("foo", TomlValue.string "1.0")] =
      processDeps [] [("foo", TomlValue.string "1.0")] :=
  unrecognized_dep_shape_skipped [] [] [("foo", TomlValue.string "1.0")] "num"
    (TomlValue.integer 7) (fun _ h => TomlValue.noConfusion h)
    (fun _ h => TomlValue.noConfusion h)

/-- C10: when a detailed dependency entry compiles, its `other` metadata map
keeps every key/value pair of the (unique-keyed) sub-table, and the `version`
pair itself is both the requirement field and an entry of the map. -/
theorem detailed_dep_metadata_complete (sub : List (String × TomlValue))
    (d : DetailedTomlDependency)
    (h : mkDetailedDep sub = .ok (.DetailedDep d))
    (hnd : (sub.map Prod.fst).Nodup) :
    ("version", d.version) ∈ d.other ∧
    ∀ p ∈ sub, ∃ s, p.2 = TomlValue.string s ∧ (p.1, s) ∈ d.other := by
  unfold mkDetailedDep at h
  cases hb : buildDetails [] sub with
  | error e => rw [hb] at h; exact Except.noConfusion h
  | ok details =>
      simp only [hb] at h
      cases hf : hmFind details "version" with
      | none => simp only [hf] at h; exact Except.noConfusion h
      | some ver =>
          simp only [hf] at h
          injection h with h
          injection h with h
          subst h
          constructor
          · exact hmFind_mem details "version" ver hf
          · intro p hp
            obtain ⟨s, hs, hmem⟩ :=
              buildDetails_mem sub [] details hb hnd p.1 p.2 hp
            exact ⟨s, hs, hmem⟩

/-- Concrete run of `detailed_dep_metadata_complete` on the sub-table
`{version = "1.0", registry = "custom"}`: the version pair is in the metadata
map and the registry pair is preserved verbatim. -/
theorem detailed_dep_metadata_complete_witness :
    ("version", "1.0") ∈ [("version", "1.0"), ("registry", "custom")] ∧
    ∃ s, TomlValue.string "custom" = TomlValue.string s ∧
      (("registry" : String), s) ∈ [("version", "1.0"), ("registry", "custom")] :=
  ⟨(detailed_dep_metadata_complete
      [("version", .string "1.0"), ("registry", .string "custom")]
      ⟨"1.0", [("version", "1.0"), ("registry", "custom")]⟩ rfl (by decide)).1,
   (detailed_dep_metadata_complete
      [("version", .string "1.0"), ("registry", .string "custom")]
      ⟨"1.0", [("version", "1.0"), ("registry", "custom")]⟩ rfl (by decide)).2
     ("registry", .string "custom") (List.mem_cons.mpr (Or.inr
       (List.mem_cons.mpr (Or.inl rfl))))⟩

theorem processDeps_missing_version (tbl : List (String × TomlValue)) :
    ∀ acc k sub, (k, TomlValue.table sub) ∈ tbl →
      "version" ∉ sub.map Prod.fst →
      (∀ k' sub', (k', TomlValue.table sub') ∈ tbl →
        ∀ q ∈ sub', ∃ s, q.2 = TomlValue.string s) →
      processDeps acc tbl =
        .error (.simpleHuman "dependencies must include a version") := by
  induction tbl with
  | nil =>
      intro acc k sub hmem
      exact absurd hmem (List.not_mem_nil _)
  | cons hd tl ih =>
      intro acc k sub hmem hnover hall
      rcases hd with ⟨k₀, v₀⟩
      cases v₀ with
      | string str =>
          simp only [processDeps]
          have hmem2 : (k, TomlValue.table sub) ∈ tl := by
            rcases List.mem_cons.mp hmem with h1 | h1
            · exact absurd (congrArg Prod.snd h1) (fun hx => TomlValue.noConfusion hx)
            · exact h1
          exact ih _ k sub hmem2 hnover
            (fun k' sub' hm => hall k' sub' (List.mem_cons.mpr (Or.inr hm)))
      | integer n =>
          simp only [processDeps]
          have hmem2 : (k, TomlValue.table sub) ∈ tl := by
            rcases List.mem_cons.mp hmem with h1 | h1
            · exact absurd (congrArg Prod.snd h1) (fun hx => TomlValue.noConfusion hx)
            · exact h1
          exact ih _ k sub hmem2 hnover
            (fun k' sub' hm => hall k' sub' (List.mem_cons.mpr (Or.inr hm)))
      | array xs =>
          simp only [processDeps]
          have hmem2 : (k, TomlValue.table sub) ∈ tl := by
            rcases List.mem_cons.mp hmem with h1 | h1
            · exact absurd (congrArg Prod.snd h1) (fun hx => TomlValue.noConfusion hx)
            · exact h1
          exact ih _ k sub hmem2 hnover
            (fun k' sub' hm => hall k' sub' (List.mem_cons.mpr (Or.inr hm)))
      | table sub₀ =>
          have hstr : ∀ q ∈ sub₀, ∃ s, q.2 = TomlValue.string s :=
            hall k₀ sub₀ (List.mem_cons.mpr (Or.inl rfl))
          obtain ⟨details, hdet⟩ := buildDetails_ok_of_strings sub₀ [] hstr
          simp only [processDeps, mkDetailedDep, hdet]
          cases hf : hmFind details "version" with
          | none => simp only [hf]
          | some ver =>
              simp only [hf]
              have hmem2 : (k, TomlValue.table sub) ∈ tl := by
                rcases List.mem_cons.mp hmem with h1 | h1
                · exfalso
                  have h2 : TomlValue.table sub = TomlValue.table sub₀ :=
                    congrArg Prod.snd h1
                  injection h2 with h3
                  have hverkeys : "version" ∈ details.map Prod.fst :=
                    List.mem_map_of_mem Prod.fst
                      (hmFind_mem details "version" ver hf)
                  rcases buildDetails_keys sub₀ [] details hdet "version"
                      hverkeys with h4 | h4
                  · exact absurd h4 (List.not_mem_nil _)
                  · rw [h3] at hnover
                    exact hnover h4
                · exact h1
              exact ih _ k sub hmem2 hnover
                (fun k' sub' hm => hall k' sub' (List.mem_cons.mpr (Or.inr hm)))

/-- C3: a dependency entry whose value is a table of strings lacking a
`version` key makes the whole compilation fail with the missing-version
error (provided the other table-shaped entries are at least string-valued,
so that no earlier entry fails first with the non-string error), and the
caller of `to_manifest` gets only the wrapped invalid-manifest error - no
manifest is produced. -/
theorem missing_version_fails {D : Type}
    (parse : String → String → Except CargoError D) (root : TomlValue)
    (p : Project) (tbl : List (String × TomlValue)) (k : String)
    (sub : List (String × TomlValue))
    (hproj : decodeProject root "project" = .ok p)
    (hdeps : root.lookup "dependencies" = some (.table tbl))
    (hmem : (k, TomlValue.table sub) ∈ tbl)
    (hnover : "version" ∉ sub.map Prod.fst)
    (hall : ∀ k' sub', (k', TomlValue.table sub') ∈ tbl →
      ∀ q ∈ sub', ∃ s, q.2 = TomlValue.string s) :
    toml_to_manifest root =
      .error (.simpleHuman "dependencies must include a version") ∧
    to_manifest parse root =
      some (.error (.simpleHuman "Cargo.toml is not a valid Cargo manifest")) := by
  have h2 := processDeps_missing_version tbl [] k sub hmem hnover hall
  have h1 : toml_to_manifest root =
      .error (.simpleHuman "dependencies must include a version") := by
    simp only [toml_to_manifest, hproj, hdeps, TomlValue.get_table, h2]
  refine ⟨h1, ?_⟩
  unfold to_manifest
  rw [h1]

/-- Concrete run of `missing_version_fails` on the document whose only
dependency entry is `foo = {registry = "custom"}`. -/
theorem missing_version_fails_witness :
    toml_to_manifest exampleRootMissingVersion =
      .error (.simpleHuman "dependencies must include a version") ∧
    to_manifest parseRecording exampleRootMissingVersion =
      some (.error (.simpleHuman "Cargo.toml is not a valid Cargo manifest")) :=
  missing_version_fails parseRecording exampleRootMissingVersion
    ⟨"demo", "0.1.0"⟩ [("foo", .table [("registry", .string "custom")])]
    "foo" [("registry", .string "custom")] rfl rfl
    (List.mem_singleton.mpr rfl) (by decide)
    (by
      intro k' sub' hm q hq
      rw [List.mem_singleton] at hm
      have h2 : TomlValue.table sub' =
          TomlValue.table [("registry", TomlValue.string "custom")] :=
        congrArg Prod.snd hm
      injection h2 with h3
      subst h3
      rw [List.mem_singleton] at hq
      subst hq
      exact ⟨"custom", rfl⟩)

theorem collectDeps_mem {D : Type}
    (parse : String → String → Except CargoError D)
    (dl : List (String × TomlDependency)) :
    ∀ ds, collectDeps parse dl = .ok ds →
      ∀ k s, (k, TomlDependency.SimpleDep s) ∈ dl →
        ∃ d, parse k s = .ok d ∧ d ∈ ds := by
  induction dl with
  | nil =>
      intro ds _ k s hmem
      exact absurd hmem (List.not_mem_nil _)
  | cons hd tl ih =>
      intro ds h k s hmem
      rcases hd with ⟨n, v⟩
      rcases List.mem_cons.mp hmem with h1 | h1
      · have hkn : k = n := congrArg Prod.fst h1
        have hv : TomlDependency.SimpleDep s = v := congrArg Prod.snd h1
        subst hkn
        subst hv
        simp only [collectDeps] at h
        cases hp : parse k s with
        | error e => rw [hp] at h; exact Except.noConfusion h
        | ok d =>
            rw [hp] at h
            cases hr : collectDeps parse tl with
            | error e => simp only [hr] at h; exact Except.noConfusion h
            | ok ds' =>
                simp only [hr] at h
                injection h with h
                subst h
                exact ⟨d, rfl, List.mem_cons.mpr (Or.inl rfl)⟩
      · cases v with
        | SimpleDep s' =>
            simp only [collectDeps] at h
            cases hp : parse n s' with
            | error e => rw [hp] at h; exact Except.noConfusion h
            | ok d =>
                rw [hp] at h
                cases hr : collectDeps parse tl with
                | error e => simp only [hr] at h; exact Except.noConfusion h
                | ok ds' =>
                    simp only [hr] at h
                    injection h with h
                    subst h
                    obtain ⟨d', hd', hmem2⟩ := ih ds' hr k s h1
                    exact ⟨d', hd', List.mem_cons.mpr (Or.inr hmem2)⟩
        | DetailedDep dd =>
            simp only [collectDeps] at h
            cases hp : parse n dd.version with
            | error e => rw [hp] at h; exact Except.noConfusion h
            | ok d =>
                rw [hp] at h
                cases hr : collectDeps parse tl with
                | error e => simp only [hr] at h; exact Except.noConfusion h
                | ok ds' =>
                    simp only [hr] at h
                    injection h with h
                    subst h
                    obtain ⟨d', hd', hmem2⟩ := ih ds' hr k s h1
                    exact ⟨d', hd', List.mem_cons.mpr (Or.inr hmem2)⟩

/-- C4: a plain-string dependency entry reaches the external requirement
parser with the entry key as the name and the string value verbatim as the
requirement, and the result of the parser for that pair is among the
dependencies of the summary of the compiled manifest. -/
theorem simple_dep_verbatim {D : Type}
    (parse : String → String → Except CargoError D) (tm : TomlManifest)
    (dl : List (String × TomlDependency)) (k s : String) (m : Manifest D)
    (hdl : tm.dependencies = some dl)
    (hmem : (k, TomlDependency.SimpleDep s) ∈ dl)
    (hok : tm.to_manifest parse = some (.ok m)) :
    ∃ d, parse k s = .ok d ∧ d ∈ m.summary.deps := by
  unfold TomlManifest.to_manifest at hok
  cases hn : normalize tm.lib tm.bin with
  | none => rw [hn] at hok; exact Option.noConfusion hok
  | some targets =>
      simp only [hn] at hok
      injection hok with hok
      simp only [hdl] at hok
      cases hc : collectDeps parse dl with
      | error e => simp only [hc] at hok; exact Except.noConfusion hok
      | ok ds =>
          simp only [hc] at hok
          injection hok with hok
          obtain ⟨d, hd, hmm⟩ := collectDeps_mem parse dl ds hc k s hmem
          refine ⟨d, hd, ?_⟩
          rw [← hok]
          exact hmm

/-- Concrete run of `simple_dep_verbatim`: the entry `foo = "1.0"` hands
`("foo", "1.0")` to the recording parser, whose output is in the compiled
summary. -/
theorem simple_dep_verbatim_witness :
    ∃ d, parseRecording "foo" "1.0" = .ok d ∧ d ∈ exampleManifest.summary.deps :=
  simple_dep_verbatim parseRecording exampleTomlManifest
    [("foo", .SimpleDep "1.0")] "foo" "1.0" exampleManifest rfl
    (List.mem_singleton.mpr rfl) rfl

/-- C1: with both a lib list (non-empty, so the indexing does not panic) and a
bin list present, `normalize` emits exactly one library target built from the
first lib entry, followed by one binary target per bin entry in declaration
order, and a bin entry without an explicit path defaults to
`src/bin/<name>.rs`, not `src/<name>.rs`. -/
theorem normalize_lib_and_bin_defaults (l : TomlTarget)
    (ls bs : List TomlTarget) :
    normalize (some (l :: ls)) (some bs) =
      some (Target.lib_target l.name (l.path.getD ("src/" ++ l.name ++ ".rs")) ::
        bs.map (fun b =>
          Target.bin_target b.name (b.path.getD ("src/bin/" ++ b.name ++ ".rs")))) := by
  rfl

/-- C5: with a bin list present and no lib list, `normalize` emits one binary
target per entry in declaration order; an explicit path is used verbatim and
a missing path defaults to `src/<name>.rs`. -/
theorem normalize_bin_only_defaults (bs : List TomlTarget) :
    normalize none (some bs) =
      some (bs.map (fun b =>
        Target.bin_target b.name (b.path.getD ("src/" ++ b.name ++ ".rs")))) := by
  rfl

/-- C6: when the lib list has two or more entries, the result is built from
the first entry only; every later lib entry is dropped without an error and
without an additional target. -/
theorem normalize_drops_extra_libs (l₀ l₁ : TomlTarget)
    (rest : List TomlTarget) (bin : Option (List TomlTarget)) :
    normalize (some (l₀ :: l₁ :: rest)) bin = normalize (some [l₀]) bin := by
  cases bin <;> rfl

/-- C9: `normalize` is total exactly when a present lib list is non-empty: on
a present but empty lib list the unguarded `&libs[0]` indexing is out of
bounds (modelled as `none`), so no library target can be produced from an
empty lib list; in every other configuration a result is produced. -/
theorem normalize_empty_lib_panics :
    (∀ bin, normalize (some []) bin = none) ∧
    (∀ (l : TomlTarget) ls bin, (normalize (some (l :: ls)) bin).isSome = true) ∧
    (∀ bin, (normalize none bin).isSome = true) := by
  refine ⟨fun bin => ?_, fun l ls bin => ?_, fun bin => ?_⟩ <;>
    cases bin <;> simp [normalize, lib_targets]

end CargoToml
